import Mathlib

/-!
Verification of the token-generation loop of `lit-parrot/chat.py`.

The embedding models the `generate` function (lines 16-95 of `chat.py`).
Real-valued / stochastic parts (the model forward pass, softmax, and
`torch.multinomial`) are abstracted by a sampling oracle `sample : ℕ → ℤ`
giving the token drawn at each loop iteration; everything downstream of the
sampling — buffer bookkeeping, stop-pattern matching, yields, position
bookkeeping and the eager `assert` — is embedded exactly.  The top-k logit
masking (lines 64-67) is real-valued but purely order-theoretic, so it is
embedded separately over `ℚ` logits.
-/

namespace Chat

/-- Sentinel used by `chat.py` line 51 (`torch.full((buffer_length,), -999)`)
to initialize the emit buffer: a token id that does not exist in any
vocabulary (real token ids are non-negative). -/
def FILLER : ℤ := -999

/-- Buffer capacity, `chat.py` line 50:
`buffer_length = max((len(tokens) for tokens in stop_tokens), default=1)`.
Python's `max` with `default=1` returns `1` on an empty iterable and the
plain maximum otherwise. -/
def bufferLength (stops : List (List ℤ)) : ℕ :=
  match stops with
  | [] => 1
  | p :: ps => ((p :: ps).map List.length).foldr max 0

/-- Python slice `buffer[-l:]` used at `chat.py` line 84: for `l = 0` this is
the whole list (Python `buffer[-0:] = buffer[0:]`), otherwise the last `l`
elements (all of them when `l` exceeds the length, as in Python). -/
def lastSlice (buf : List ℤ) (l : ℕ) : List ℤ :=
  if l = 0 then buf else buf.drop (buf.length - l)

/-- Stop-condition scan, `chat.py` lines 82-84: iterate over the configured
patterns in order and return the first one (with its index) whose tokens
equal the trailing slice of the buffer; `torch.equal` requires equal shapes
and contents, which list equality captures. -/
def findStopAux : List (List ℤ) → List ℤ → ℕ → Option (ℕ × List ℤ)
  | [], _, _ => none
  | p :: ps, buf, i =>
    if lastSlice buf p.length = p then some (i, p) else findStopAux ps buf (i + 1)

/-- State threaded through the generation loop of `chat.py` lines 58-95.
`buffer`/`yieldI` are the variables of the same names; `emitted` collects
every token yielded to the caller so far, in order; `stopped = some (t, i)`
records that the `return` at line 88 fired at loop iteration `t` on the
pattern with configuration index `i`; `posTrace` records the `input_pos`
argument of every model call made (line 61) and `inputPos` is the current
`input_pos` tensor (line 47 / line 73). -/
structure GenState where
  buffer : List ℤ
  yieldI : ℤ
  emitted : List ℤ
  stopped : Option (ℕ × ℕ)
  posTrace : List (List ℕ)
  inputPos : List ℕ
  deriving DecidableEq, Repr

/-- Model-call position bookkeeping for one iteration: the model is invoked
with the current `input_pos` (line 61, recorded into `posTrace`) and then
`input_pos = input_pos[-1:] + 1` (line 73). -/
def advancePos (st : GenState) : GenState :=
  { st with
    posTrace := st.posTrace ++ [st.inputPos]
    inputPos :=
      match st.inputPos.getLast? with
      | some x => [x + 1]
      | none => [] }

/-- One iteration of the `for t in range(max_new_tokens)` loop, lines 59-95.
If the generator already returned (`stopped.isSome`) nothing happens.
Otherwise: the model is called and a token sampled (`sample t`), the token is
written at `buffer[min(t, buffer_length - 1)]` (line 79), the stop scan runs
(lines 82-88, yielding `buffer[:-l]` when `buffer_length > l` and
returning), and otherwise the steady-state yield of `buffer[0]` plus the
left roll happen when `t - yield_i >= buffer_length` (lines 90-95). -/
def genStep (stops : List (List ℤ)) (L : ℕ) (sample : ℕ → ℤ) (st : GenState) (t : ℕ) :
    GenState :=
  if st.stopped.isSome then st
  else
    let st1 := advancePos st
    let buf := st1.buffer.set (min t (L - 1)) (sample t)
    match findStopAux stops buf 0 with
    | some (i, p) =>
      { st1 with
        buffer := buf
        emitted := st1.emitted ++ (if p.length < L then buf.take (L - p.length) else [])
        stopped := some (t, i) }
    | none =>
      if (L : ℤ) ≤ (t : ℤ) - st1.yieldI then
        { st1 with
          buffer := buf.drop 1 ++ buf.take 1
          emitted := st1.emitted ++ buf.take 1
          yieldI := st1.yieldI + 1 }
      else { st1 with buffer := buf }

/-- Loop entry state: `input_pos = torch.arange(0, T)` (line 47), buffer full
of the `-999` sentinel (line 51), `yield_i = -1` (line 58). -/
def initState (T L : ℕ) : GenState :=
  { buffer := List.replicate L FILLER
    yieldI := -1
    emitted := []
    stopped := none
    posTrace := []
    inputPos := List.range T }

/-- Run of the generation loop for a prompt of length `T` over the full
budget `N = max_new_tokens`, `chat.py` lines 58-95. -/
def genRun (stops : List (List ℤ)) (sample : ℕ → ℤ) (T N : ℕ) : GenState :=
  (List.range N).foldl (genStep stops (bufferLength stops) sample) (initState T (bufferLength stops))

/-- Resolution of the `max_seq_length` argument, `chat.py` lines 40-41:
`if max_seq_length is None: max_seq_length = min(T_new, model.config.block_size)`. -/
def resolveMaxSeqLength (T N blockSize : ℕ) (msl : Option ℕ) : ℕ :=
  msl.getD (min (T + N) blockSize)

/-- Entry point `generate`, including the eager validation at line 43
(`assert max_seq_length <= T_new`), the only configuration check the source
performs before the loop.  `none` models the `AssertionError` abort (no
token yielded); `temperature` reaches the code only at line 62 as a divisor
of the logits, i.e. inside the sampling pipeline the oracle abstracts, and
no code path inspects it. -/
def generate (T N blockSize : ℕ) (msl : Option ℕ) (temperature : ℚ)
    (stops : List (List ℤ)) (sample : ℕ → ℤ) : Option GenState :=
  if resolveMaxSeqLength T N blockSize msl ≤ T + N then
    some (genRun stops sample T N)
  else none

/-- Threshold of the top-k mask, `chat.py` line 66:
`v, _ = torch.topk(logits, min(top_k, logits.size(-1)))`, whose last entry
`v[-1]` is the `min(k, n)`-th largest logit counting duplicates — that is,
entry `n - min(k, n)` (0-based) of the ascending sort of the logits. -/
def topkThreshold (logits : List ℚ) (k : ℕ) : ℚ :=
  (List.insertionSort (fun a b : ℚ => a ≤ b) logits).getD
    (logits.length - min k logits.length) 0

/-- Top-k mask, `chat.py` line 67:
`logits = torch.where(logits < v[[-1]], -float("Inf"), logits)`.  An entry
mapped to `none` stands for `-inf`; the subsequent softmax (line 69) assigns
probability `exp xᵢ / Σ` — zero exactly at the `-inf` entries and strictly
positive at the surviving finite entries — so the support of the sampling
distribution is exactly the `some` entries of this list. -/
def topkMasked (logits : List ℚ) (k : ℕ) : List (Option ℚ) :=
  logits.map (fun x => if x < topkThreshold logits k then none else some x)

/-- Sampling oracle of the C1 witness run: tokens 1, 9, 10. -/
def w1 : ℕ → ℤ := fun t => [1, 9, 10].getD t 0

/-- Sampling oracle of the C6 witness run: tokens 5, 7. -/
def w6 : ℕ → ℤ := fun t => [5, 7].getD t 0

/-! Closed-form description of the loop state, proved to coincide with the
fold of `genStep` as long as no stop pattern has fired. -/

/-- Value of `input_pos` at entry of loop iteration `t` (prompt length `T`):
the whole range `0..T-1` on the first iteration and the single position
`T + t - 1` afterwards. -/
def inputPosSpec (T t : ℕ) : List ℕ :=
  if t = 0 then List.range T else [T + t - 1]

/-- Buffer content at entry of loop iteration `t` of a match-free run: while
filling (`t < L`) the first `t` slots hold the sampled tokens and the rest
still hold the sentinel; afterwards the buffer holds the last `L - 1` tokens
followed by the already-yielded token `sample (t - L)` left behind by
`torch.roll`. -/
def specBufStart (sample : ℕ → ℤ) (L t : ℕ) : List ℤ :=
  if t < L then (List.range t).map sample ++ List.replicate (L - t) FILLER
  else ((List.range' (t + 1 - L) (L - 1)).map sample) ++ [sample (t - L)]

/-- Value of `yield_i` at entry of loop iteration `t` of a match-free run. -/
def specYieldI (L t : ℕ) : ℤ :=
  if t < L then -1 else (t : ℤ) - (L : ℤ)

/-- Tokens yielded so far at entry of loop iteration `t` of a match-free run:
exactly the first `t + 1 - L` sampled tokens. -/
def specEmitted (sample : ℕ → ℤ) (L t : ℕ) : List ℤ :=
  (List.range (t + 1 - L)).map sample

/-- Loop state at entry of iteration `t` of a match-free run. -/
def runningState (sample : ℕ → ℤ) (T L t : ℕ) : GenState :=
  { buffer := specBufStart sample L t
    yieldI := specYieldI L t
    emitted := specEmitted sample L t
    stopped := none
    posTrace := (List.range t).map (inputPosSpec T)
    inputPos := inputPosSpec T t }

/-- Buffer content right after the write `buffer[min(t, buffer_length-1)]`
of iteration `t` of a match-free run: the first `t + 1` samples (plus
sentinel padding) while filling, the last `L` samples afterwards. -/
def writtenBuf (sample : ℕ → ℤ) (L t : ℕ) : List ℤ :=
  if t + 1 < L then (List.range (t + 1)).map sample ++ List.replicate (L - (t + 1)) FILLER
  else (List.range' (t + 1 - L) L).map sample

/-- Outcome of the stop scan at iteration `t`, assuming no earlier match. -/
def matchAt (stops : List (List ℤ)) (sample : ℕ → ℤ) (t : ℕ) : Option (ℕ × List ℤ) :=
  findStopAux stops (writtenBuf sample (bufferLength stops) t) 0

/-- No stop pattern fires at any iteration before `t`. -/
def stopsFree (stops : List (List ℤ)) (sample : ℕ → ℤ) (t : ℕ) : Prop :=
  ∀ u, u < t → matchAt stops sample u = none

/-- Final state of a run whose stop scan first fires at iteration `t`, on
the pattern `p` of configuration index `i` (buffer capacity `L`). -/
def stopState (sample : ℕ → ℤ) (T L t i : ℕ) (p : List ℤ) : GenState :=
  { buffer := writtenBuf sample L t
    yieldI := specYieldI L t
    emitted := specEmitted sample L t ++
      (if p.length < L then (writtenBuf sample L t).take (L - p.length) else [])
    stopped := some (t, i)
    posTrace := (List.range (t + 1)).map (inputPosSpec T)
    inputPos := inputPosSpec T (t + 1) }

/-! Elementary helpers. -/

/-- Setting the slot right after a prefix of known length. -/
theorem set_append_len (xs : List ℤ) (a z : ℤ) (ys : List ℤ) :
    (xs ++ a :: ys).set xs.length z = xs ++ z :: ys := by
  induction xs with
  | nil => rfl
  | cons x xs ih => simp [List.set, ih]

/-- Variant of `set_append_len` keyed on a numeral index. -/
theorem set_append_idx (xs : List ℤ) (a z : ℤ) (ys : List ℤ) (n : ℕ) (h : n = xs.length) :
    (xs ++ a :: ys).set n z = xs ++ z :: ys := by
  subst h; exact set_append_len xs a z ys

/-- Dropping strictly fewer elements than the length preserves the last
element. -/
theorem getLast?_drop_of_lt {α : Type} (xs : List α) (n : ℕ) (h : n < xs.length) :
    (xs.drop n).getLast? = xs.getLast? := by
  induction xs generalizing n with
  | nil => simp at h
  | cons x xs ih =>
    cases n with
    | zero => rfl
    | succ m =>
      simp only [List.length_cons, Nat.succ_lt_succ_iff] at h
      rw [List.drop_succ_cons, ih m h]
      cases xs with
      | nil => simp at h
      | cons y ys => simp

/-- Every configured pattern fits inside the buffer. -/
theorem length_le_bufferLength {stops : List (List ℤ)} {p : List ℤ} (h : p ∈ stops) :
    p.length ≤ bufferLength stops := by
  cases stops with
  | nil => simp at h
  | cons q qs =>
    show p.length ≤ ((q :: qs).map List.length).foldr max 0
    have : ∀ (l : List (List ℤ)), p ∈ l → p.length ≤ (l.map List.length).foldr max 0 := by
      intro l
      induction l with
      | nil => intro h'; simp at h'
      | cons r rs ih =>
        intro h'
        rcases List.mem_cons.mp h' with h' | h'
        · subst h'; exact le_max_left _ _
        · exact le_trans (ih h') (le_max_right _ _)
    exact this _ h

/-- With every pattern non-empty the buffer capacity is at least one. -/
theorem bufferLength_pos {stops : List (List ℤ)} (hne : ∀ p ∈ stops, p ≠ []) :
    1 ≤ bufferLength stops := by
  cases stops with
  | nil => exact le_refl 1
  | cons q qs =>
    have hq : 1 ≤ q.length := by
      have := hne q (List.mem_cons_self q qs)
      cases q with
      | nil => exact absurd rfl this
      | cons _ _ => simp
    exact le_trans hq (length_le_bufferLength (List.mem_cons_self q qs))

/-! Characterization of the stop scan. -/

/-- The scan returns `none` exactly when no configured pattern matches the
trailing slice of the buffer. -/
theorem findStopAux_eq_none {ps : List (List ℤ)} {buf : List ℤ} {i : ℕ} :
    findStopAux ps buf i = none ↔ ∀ p ∈ ps, lastSlice buf p.length ≠ p := by
  induction ps generalizing i with
  | nil => simp [findStopAux]
  | cons q qs ih =>
    unfold findStopAux
    by_cases hq : lastSlice buf q.length = q
    · simp [hq]
    · simp only [if_neg hq]
      rw [ih]
      constructor
      · intro h p hp
        rcases List.mem_cons.mp hp with h' | h'
        · subst h'; exact hq
        · exact h p h'
      · intro h p hp
        exact h p (List.mem_cons_of_mem _ hp)

/-- The scan returns the first matching pattern in configuration order: the
result indexes a matching pattern, and every earlier pattern fails to
match. -/
theorem findStopAux_eq_some {ps : List (List ℤ)} {buf : List ℤ} {i j : ℕ} {p : List ℤ}
    (h : findStopAux ps buf i = some (j, p)) :
    i ≤ j ∧ ps[j - i]? = some p ∧ lastSlice buf p.length = p ∧
      ∀ k, k < j - i → ∀ q, ps[k]? = some q → lastSlice buf q.length ≠ q := by
  induction ps generalizing i with
  | nil => simp [findStopAux] at h
  | cons r rs ih =>
    unfold findStopAux at h
    by_cases hr : lastSlice buf r.length = r
    · rw [if_pos hr] at h
      obtain ⟨h1, h2⟩ : i = j ∧ r = p := by
        have h' := Option.some.inj h
        exact ⟨congrArg Prod.fst h', congrArg Prod.snd h'⟩
      subst h1
      subst h2
      refine ⟨le_refl i, ?_, hr, ?_⟩
      · simp
      · intro k hk; omega
    · rw [if_neg hr] at h
      obtain ⟨hij, hget, hsl, hfirst⟩ := ih h
      have hij' : i ≤ j := by omega
      have hidx : j - i = (j - (i + 1)) + 1 := by omega
      refine ⟨hij', ?_, hsl, ?_⟩
      · rw [hidx]; simpa using hget
      · intro k hk q hq
        cases k with
        | zero =>
          have hqr : r = q := by simpa using hq
          subst hqr; exact hr
        | succ k' =>
          have hk' : k' < j - (i + 1) := by omega
          exact hfirst k' hk' q (by simpa using hq)

/-! The buffer write of one iteration. -/

/-- Writing `sample t` at `buffer[min(t, L-1)]` turns the entry-state buffer
into the written buffer. -/
theorem set_specBufStart (sample : ℕ → ℤ) {L : ℕ} (hL : 1 ≤ L) (t : ℕ) :
    (specBufStart sample L t).set (min t (L - 1)) (sample t) = writtenBuf sample L t := by
  rcases Nat.lt_trichotomy (t + 1) L with hA | hB | hC
  · -- fill phase, the written slot is not the last one
    have ht : t < L := by omega
    have hmin : min t (L - 1) = t := by omega
    have hrep : L - t = (L - t - 1) + 1 := by omega
    rw [specBufStart, if_pos ht, writtenBuf, if_pos hA, hmin, hrep, List.replicate_succ]
    rw [set_append_idx _ _ _ _ t (by simp)]
    rw [List.range_succ, List.map_append]
    simp only [List.map_cons, List.map_nil, List.append_assoc, List.singleton_append]
    have : L - (t + 1) = L - t - 1 := by omega
    rw [this]
  · -- the write fills the last free slot
    have ht : t < L := by omega
    have hmin : min t (L - 1) = t := by omega
    have hrep : L - t = 1 := by omega
    rw [specBufStart, if_pos ht, writtenBuf, if_neg (by omega), hmin, hrep]
    rw [List.replicate_succ, List.replicate_zero, set_append_idx _ _ _ _ t (by simp)]
    have h0 : t + 1 - L = 0 := by omega
    rw [h0, ← List.range_eq_range', ← hB, List.range_succ, List.map_append]
    rfl
  · -- steady state: the write goes to the last slot over the stale token
    have ht : ¬ t < L := by omega
    have hmin : min t (L - 1) = L - 1 := by omega
    rw [specBufStart, if_neg ht, writtenBuf, if_neg (by omega), hmin]
    rw [set_append_idx _ _ _ _ (L - 1) (by simp)]
    have h1 : List.range' (t + 1 - L) ((L - 1) + 1) =
        List.range' (t + 1 - L) (L - 1) ++ [(t + 1 - L) + (L - 1)] :=
      List.range'_1_concat _ _
    have h2 : (L - 1) + 1 = L := by omega
    have h3 : (t + 1 - L) + (L - 1) = t := by omega
    rw [h2, h3] at h1
    rw [h1, List.map_append]
    rfl

/-! One-iteration lemmas for the match-free regime. -/

/-- Advancing `input_pos` (line 73) sends the iteration-`t` value to the
iteration-`t+1` value. -/
theorem inputPosSpec_advance (T t : ℕ) (hT : 1 ≤ T) :
    (match (inputPosSpec T t).getLast? with
      | some x => [x + 1]
      | none => ([] : List ℕ)) = inputPosSpec T (t + 1) := by
  have hlast : (inputPosSpec T t).getLast? = some (T + t - 1) := by
    unfold inputPosSpec
    cases t with
    | zero =>
      rw [if_pos rfl]
      rw [show T = (T - 1) + 1 by omega, List.range_succ, List.getLast?_concat]
      congr 1
    | succ u =>
      rw [if_neg (by omega)]
      simp only [List.getLast?_singleton]
  rw [hlast]
  show [T + t - 1 + 1] = inputPosSpec T (t + 1)
  unfold inputPosSpec
  rw [if_neg (by omega : ¬ t + 1 = 0)]
  simp only [List.cons.injEq, and_true]
  omega

/-- First token of the written buffer once the buffer has been filled. -/
theorem writtenBuf_cons (sample : ℕ → ℤ) {L t : ℕ} (hL : 1 ≤ L) (h : L ≤ t + 1) :
    writtenBuf sample L t =
      sample (t + 1 - L) :: (List.range' (t + 1 - L + 1) (L - 1)).map sample := by
  have hc : List.range' (t + 1 - L) L = (t + 1 - L) :: List.range' (t + 1 - L + 1) (L - 1) := by
    have h1 := List.range'_succ (t + 1 - L) (L - 1) 1
    rw [show (L - 1) + 1 = L by omega] at h1
    exact h1
  rw [writtenBuf, if_neg (by omega), hc]
  rfl

/-- The steady-state yield appends exactly the next sampled token. -/
theorem specEmitted_step (sample : ℕ → ℤ) {L t : ℕ} (h : L ≤ t + 1) :
    specEmitted sample L t ++ [sample (t + 1 - L)] = specEmitted sample L (t + 1) := by
  unfold specEmitted
  rw [show t + 1 + 1 - L = (t + 1 - L) + 1 by omega, List.range_succ, List.map_append]
  rfl

/-- Rolling the written buffer left produces the next entry state. -/
theorem writtenBuf_roll (sample : ℕ → ℤ) {L t : ℕ} (hL : 1 ≤ L) (h : L ≤ t + 1) :
    (writtenBuf sample L t).drop 1 ++ (writtenBuf sample L t).take 1 =
      specBufStart sample L (t + 1) := by
  rw [writtenBuf_cons sample hL h, specBufStart, if_neg (by omega)]
  simp only [List.drop_succ_cons, List.drop_zero, List.take_succ_cons, List.take_zero]
  rw [show t + 1 - L + 1 = t + 1 + 1 - L by omega]

/-- Iteration `t` of a match-free run sends the entry state of `t` to the
entry state of `t + 1`. -/
theorem genStep_running (stops : List (List ℤ)) (sample : ℕ → ℤ) (T L t : ℕ)
    (hT : 1 ≤ T) (hL : 1 ≤ L)
    (hfree : findStopAux stops (writtenBuf sample L t) 0 = none) :
    genStep stops L sample (runningState sample T L t) t = runningState sample T L (t + 1) := by
  have hbuf := set_specBufStart sample hL t
  by_cases hyl : t + 1 < L
  · have hcond : ¬ ((L : ℤ) ≤ (t : ℤ) - specYieldI L t) := by
      unfold specYieldI
      rw [if_pos (by omega : t < L)]
      omega
    simp only [genStep, runningState, advancePos, Option.isSome_none, Bool.false_eq_true,
      if_false, hbuf, hfree, if_neg hcond]
    simp only [GenState.mk.injEq]
    refine ⟨?_, ?_, ?_, True.intro, ?_, ?_⟩
    · rw [writtenBuf, if_pos hyl, specBufStart, if_pos hyl]
    · unfold specYieldI
      rw [if_pos (by omega : t < L), if_pos hyl]
    · unfold specEmitted
      rw [show t + 1 - L = 0 by omega, show t + 1 + 1 - L = 0 by omega]
    · rw [List.range_succ, List.map_append]
      rfl
    · exact inputPosSpec_advance T t hT
  · have hyl' : L ≤ t + 1 := by omega
    have hcond : (L : ℤ) ≤ (t : ℤ) - specYieldI L t := by
      unfold specYieldI
      split_ifs <;> omega
    simp only [genStep, runningState, advancePos, Option.isSome_none, Bool.false_eq_true,
      if_false, hbuf, hfree, if_pos hcond]
    simp only [GenState.mk.injEq]
    refine ⟨?_, ?_, ?_, True.intro, ?_, ?_⟩
    · exact writtenBuf_roll sample hL hyl'
    · unfold specYieldI
      split_ifs <;> omega
    · rw [writtenBuf_cons sample hL hyl']
      simp only [List.take_succ_cons, List.take_zero]
      exact specEmitted_step sample hyl'
    · rw [List.range_succ, List.map_append]
      rfl
    · exact inputPosSpec_advance T t hT

/-- Iteration `t` of a match-free run on which the stop scan fires produces
the stop state. -/
theorem genStep_stopping (stops : List (List ℤ)) (sample : ℕ → ℤ) (T L t i : ℕ) (p : List ℤ)
    (hT : 1 ≤ T) (hL : 1 ≤ L)
    (hmatch : findStopAux stops (writtenBuf sample L t) 0 = some (i, p)) :
    genStep stops L sample (runningState sample T L t) t = stopState sample T L t i p := by
  have hbuf := set_specBufStart sample hL t
  simp only [genStep, runningState, advancePos, Option.isSome_none, Bool.false_eq_true,
    if_false, hbuf, hmatch]
  simp only [stopState, GenState.mk.injEq]
  refine ⟨True.intro, True.intro, True.intro, True.intro, ?_, ?_⟩
  · rw [List.range_succ, List.map_append]
    rfl
  · exact inputPosSpec_advance T t hT

/-! Whole-run lemmas. -/

/-- Once the generator has returned, further iterations do nothing. -/
theorem genStep_frozen (stops : List (List ℤ)) (L : ℕ) (sample : ℕ → ℤ) (st : GenState)
    (t : ℕ) (h : st.stopped.isSome = true) :
    genStep stops L sample st t = st := by
  simp [genStep, h]

/-- Once the generator has returned, the rest of the fold does nothing. -/
theorem foldl_frozen (stops : List (List ℤ)) (L : ℕ) (sample : ℕ → ℤ) (l : List ℕ)
    (st : GenState) (h : st.stopped.isSome = true) :
    l.foldl (genStep stops L sample) st = st := by
  induction l with
  | nil => rfl
  | cons x xs ih => rw [List.foldl_cons, genStep_frozen stops L sample st x h, ih]

/-- Running `t` match-free iterations reaches exactly the closed-form entry
state of iteration `t`. -/
theorem genRun_eq_running (stops : List (List ℤ)) (sample : ℕ → ℤ) (T t : ℕ)
    (hT : 1 ≤ T) (hL : 1 ≤ bufferLength stops)
    (hfree : stopsFree stops sample t) :
    genRun stops sample T t = runningState sample T (bufferLength stops) t := by
  induction t with
  | zero =>
    unfold genRun runningState initState specBufStart specYieldI specEmitted inputPosSpec
    rw [if_pos (by omega : 0 < bufferLength stops), if_pos (by omega : 0 < bufferLength stops)]
    rw [show 0 + 1 - bufferLength stops = 0 by omega]
    simp
  | succ u ih =>
    have hfree' : stopsFree stops sample u := fun v hv => hfree v (by omega)
    unfold genRun
    rw [List.range_succ, List.foldl_append, List.foldl_cons, List.foldl_nil]
    have hrun : (List.range u).foldl (genStep stops (bufferLength stops) sample)
        (initState T (bufferLength stops)) = runningState sample T (bufferLength stops) u := by
      have := ih hfree'
      unfold genRun at this
      exact this
    rw [hrun]
    exact genStep_running stops sample T (bufferLength stops) u hT hL (hfree u (by omega))

/-- A run whose stop scan first fires at iteration `t < N` ends in the
closed-form stop state. -/
theorem genRun_eq_stop (stops : List (List ℤ)) (sample : ℕ → ℤ) (T N t i : ℕ) (p : List ℤ)
    (hT : 1 ≤ T) (hL : 1 ≤ bufferLength stops) (ht : t < N)
    (hfree : stopsFree stops sample t)
    (hmatch : matchAt stops sample t = some (i, p)) :
    genRun stops sample T N = stopState sample T (bufferLength stops) t i p := by
  have hsplit : List.range N = List.range (t + 1) ++ List.range' (t + 1) (N - (t + 1)) := by
    have h1 := List.range'_append_1 0 (t + 1) (N - (t + 1))
    rw [Nat.zero_add] at h1
    rw [List.range_eq_range', List.range_eq_range', h1]
    congr 1
    omega
  unfold genRun
  rw [hsplit, List.foldl_append]
  have hinner : (List.range (t + 1)).foldl (genStep stops (bufferLength stops) sample)
      (initState T (bufferLength stops)) = stopState sample T (bufferLength stops) t i p := by
    rw [List.range_succ, List.foldl_append, List.foldl_cons, List.foldl_nil]
    have hrun : (List.range t).foldl (genStep stops (bufferLength stops) sample)
        (initState T (bufferLength stops)) = runningState sample T (bufferLength stops) t := by
      have := genRun_eq_running stops sample T t hT hL hfree
      unfold genRun at this
      exact this
    rw [hrun]
    exact genStep_stopping stops sample T (bufferLength stops) t i p hT hL hmatch
  rw [hinner]
  exact foldl_frozen _ _ _ _ _ rfl

/-- Complete classification of a run: either no stop pattern ever fires and
the run ends in the closed-form running state, or there is a first firing
iteration and the run ends in the corresponding stop state. -/
theorem genRun_cases (stops : List (List ℤ)) (sample : ℕ → ℤ) (T N : ℕ)
    (hT : 1 ≤ T) (hL : 1 ≤ bufferLength stops) :
    (stopsFree stops sample N ∧
      genRun stops sample T N = runningState sample T (bufferLength stops) N) ∨
    (∃ t i p, t < N ∧ stopsFree stops sample t ∧ matchAt stops sample t = some (i, p) ∧
      genRun stops sample T N = stopState sample T (bufferLength stops) t i p) := by
  by_cases hf : stopsFree stops sample N
  · exact Or.inl ⟨hf, genRun_eq_running stops sample T N hT hL hf⟩
  · right
    have hex : ∃ u, u < N ∧ matchAt stops sample u ≠ none := by
      unfold stopsFree at hf
      push_neg at hf
      exact hf
    obtain ⟨htN, htne⟩ := Nat.find_spec hex
    have hfree : stopsFree stops sample (Nat.find hex) := by
      intro u hu
      by_contra hne
      exact Nat.find_min hex hu ⟨by omega, hne⟩
    rcases hm : matchAt stops sample (Nat.find hex) with _ | ⟨i, p⟩
    · exact absurd hm htne
    · exact ⟨Nat.find hex, i, p, htN, hfree,
        hm, genRun_eq_stop stops sample T N (Nat.find hex) i p hT hL htN hfree hm⟩

/-! Facts about the written buffer and the stop scan during the fill
phase. -/

/-- Length of the written buffer is always the capacity. -/
theorem writtenBuf_length (sample : ℕ → ℤ) (L t : ℕ) (hL : 1 ≤ L) :
    (writtenBuf sample L t).length = L := by
  unfold writtenBuf
  split_ifs with h
  · simp only [List.length_append, List.length_map, List.length_range, List.length_replicate]
    omega
  · simp only [List.length_map, List.length_range']

/-- While the buffer is still filling, its last slot holds the sentinel. -/
theorem writtenBuf_getLast_filler (sample : ℕ → ℤ) {L t : ℕ} (h : t + 1 < L) :
    (writtenBuf sample L t).getLast? = some FILLER := by
  rw [writtenBuf, if_pos h, List.getLast?_append]
  rw [show L - (t + 1) = (L - (t + 1) - 1) + 1 by omega, List.replicate_succ',
    List.getLast?_concat]
  rfl

/-- While the buffer is still filling, no pattern of valid (non-negative)
tokens can match: every trailing slice the scan compares ends in the `-999`
sentinel. -/
theorem matchAt_fill_none (stops : List (List ℤ)) (sample : ℕ → ℤ) (t : ℕ)
    (hne : ∀ p ∈ stops, p ≠ []) (hval : ∀ p ∈ stops, ∀ x ∈ p, 0 ≤ x)
    (h : t + 1 < bufferLength stops) :
    matchAt stops sample t = none := by
  unfold matchAt
  rw [findStopAux_eq_none]
  intro p hp hsl
  have hplen : 0 < p.length := List.length_pos.mpr (hne p hp)
  have hL : 1 ≤ bufferLength stops := by omega
  have hlen := writtenBuf_length sample (bufferLength stops) t hL
  have hlast : (lastSlice (writtenBuf sample (bufferLength stops) t) p.length).getLast? =
      (writtenBuf sample (bufferLength stops) t).getLast? := by
    unfold lastSlice
    rw [if_neg (by omega : ¬ p.length = 0)]
    exact getLast?_drop_of_lt _ _ (by omega)
  rw [hsl, writtenBuf_getLast_filler sample h] at hlast
  have hmem : FILLER ∈ p := List.mem_of_getLast?_eq_some hlast
  have := hval p hp FILLER hmem
  norm_num [FILLER] at this

/-- A firing stop scan implies the buffer has already filled. -/
theorem filled_of_matchAt (stops : List (List ℤ)) (sample : ℕ → ℤ) {t i : ℕ} {p : List ℤ}
    (hne : ∀ p ∈ stops, p ≠ []) (hval : ∀ p ∈ stops, ∀ x ∈ p, 0 ≤ x)
    (hm : matchAt stops sample t = some (i, p)) :
    bufferLength stops ≤ t + 1 := by
  by_contra h
  rw [matchAt_fill_none stops sample t hne hval (by omega)] at hm
  exact Option.noConfusion hm

/-- Emitted stream of a stop state: with the buffer filled, the pre-match
yields plus the final flush are exactly the first `t + 1 - len(p)` samples. -/
theorem stopState_emitted (sample : ℕ → ℤ) (T L t i : ℕ) (p : List ℤ)
    (hL : 1 ≤ L) (hLe : L ≤ t + 1) (hpL : p.length ≤ L) :
    (stopState sample T L t i p).emitted = (List.range (t + 1 - p.length)).map sample := by
  unfold stopState specEmitted
  show specEmitted sample L t ++ _ = _
  unfold specEmitted
  by_cases hlt : p.length < L
  · rw [if_pos hlt]
    have hw : writtenBuf sample L t =
        (List.range' (t + 1 - L) (L - p.length)).map sample ++
        (List.range' (t + 1 - L + (L - p.length)) p.length).map sample := by
      rw [writtenBuf, if_neg (by omega), ← List.map_append]
      congr 1
      rw [List.range'_append_1]
      congr 1
      omega
    rw [hw, List.take_left' (by simp)]
    rw [← List.map_append]
    congr 1
    rw [List.range_eq_range', List.range_eq_range']
    have h2 := List.range'_append_1 0 (t + 1 - L) (L - p.length)
    rw [Nat.zero_add] at h2
    rw [h2]
    congr 1
    omega
  · rw [if_neg hlt, List.append_nil]
    congr 2
    omega

/-- Mapped initial segments of the naturals are prefixes of one another. -/
theorem map_range_prefix_of_le (f : ℕ → ℤ) {a b : ℕ} (h : a ≤ b) :
    (List.range a).map f <+: (List.range b).map f := by
  refine ⟨(List.range' a (b - a)).map f, ?_⟩
  rw [← List.map_append]
  congr 1
  rw [List.range_eq_range', List.range_eq_range']
  have h2 := List.range'_append_1 0 a (b - a)
  rw [Nat.zero_add] at h2
  rw [h2]
  congr 1
  omega

/-! Claim theorems. -/

/-- C1: whenever `generate` stops with a detected match of the pattern of
configuration index `i` (of length `m = p.length`) at loop iteration `t` —
i.e. after producing `t + 1` tokens — the concatenation of everything it
yielded is exactly the first `t + 1 - m` sampled tokens in generation
order; in particular no token position belonging to the recognized match
(positions `t + 1 - m .. t`) is ever yielded.  Stop patterns are non-empty
lists of valid (non-negative) token ids. -/
theorem stop_match_truncates_output (stops : List (List ℤ)) (sample : ℕ → ℤ)
    (T N : ℕ) (hT : 1 ≤ T)
    (hne : ∀ p ∈ stops, p ≠ []) (hval : ∀ p ∈ stops, ∀ x ∈ p, 0 ≤ x)
    {t i : ℕ} {p : List ℤ}
    (hstop : (genRun stops sample T N).stopped = some (t, i))
    (hp : stops[i]? = some p) :
    (genRun stops sample T N).emitted = (List.range (t + 1 - p.length)).map sample := by
  have hL : 1 ≤ bufferLength stops := bufferLength_pos hne
  rcases genRun_cases stops sample T N hT hL with ⟨hfree, heq⟩ | ⟨t0, i0, p0, htN, hfree, hm, heq⟩
  · rw [heq] at hstop
    exact absurd hstop (by simp [runningState])
  · rw [heq] at hstop ⊢
    simp only [stopState, Option.some.injEq, Prod.mk.injEq] at hstop
    obtain ⟨rfl, rfl⟩ := hstop
    have hm' := hm
    unfold matchAt at hm'
    obtain ⟨-, hget, -, -⟩ := findStopAux_eq_some hm'
    rw [Nat.sub_zero] at hget
    have hp0 : p0 = p := by
      rw [hget] at hp
      exact Option.some.inj hp
    subst hp0
    have hmem : p0 ∈ stops := List.getElem?_mem hget
    exact stopState_emitted sample T (bufferLength stops) t0 i0 p0 hL
      (filled_of_matchAt stops sample hne hval hm) (length_le_bufferLength hmem)

/-- C1 witness: with the single stop pattern `[9, 10]` and sampled tokens
`1, 9, 10`, the run stops at iteration `t = 2` on the length-2 pattern and
yields exactly the first `3 - 2 = 1` sampled tokens, namely `[1]`. -/
theorem stop_match_truncates_output_witness :
    (genRun [[9, 10]] w1 1 3).emitted = (List.range (2 + 1 - [(9 : ℤ), 10].length)).map w1 :=
  @stop_match_truncates_output [[9, 10]] w1 1 3 (by decide) (by decide) (by decide)
    2 0 [(9 : ℤ), 10] (by decide) (by decide)

/-- C3 counterexample: with stop patterns `([5, 5],)` (buffer capacity 2),
`max_new_tokens = 2` and sampled tokens `1, 2`, no stop match is detected,
yet `generate` yields only `[1]` — one token, not `N = 2`: the remaining
buffered token `2` is never flushed on budget exhaustion. -/
theorem budget_exhaustion_counterexample :
    (genRun [[5, 5]] (fun t => (t : ℤ) + 1) 1 2).stopped = none ∧
    (genRun [[5, 5]] (fun t => (t : ℤ) + 1) 1 2).emitted = [1] ∧
    (genRun [[5, 5]] (fun t => (t : ℤ) + 1) 1 2).emitted.length ≠ 2 := by
  refine ⟨by decide, by decide, by decide⟩

/-- C3 amended: with no stop match detected, `generate` yields exactly
`N + 1 - L` tokens (`L` the buffer capacity, ℕ-truncated subtraction) — the
first `N + 1 - L` sampled tokens in order.  The trailing `min N (L - 1)`
sampled tokens remain in the buffer and are never flushed; only when
`L = 1` does the yielded count equal `N = max_new_tokens`. -/
theorem budget_exhaustion_emitted (stops : List (List ℤ)) (sample : ℕ → ℤ)
    (T N : ℕ) (hT : 1 ≤ T) (hne : ∀ p ∈ stops, p ≠ [])
    (hnostop : (genRun stops sample T N).stopped = none) :
    (genRun stops sample T N).emitted =
      (List.range (N + 1 - bufferLength stops)).map sample ∧
    (genRun stops sample T N).emitted.length = N + 1 - bufferLength stops ∧
    (bufferLength stops = 1 → (genRun stops sample T N).emitted.length = N) := by
  have hL : 1 ≤ bufferLength stops := bufferLength_pos hne
  rcases genRun_cases stops sample T N hT hL with ⟨hfree, heq⟩ | ⟨t0, i0, p0, htN, hfree, hm, heq⟩
  · rw [heq]
    refine ⟨rfl, by simp [runningState, specEmitted], ?_⟩
    intro h1
    simp [runningState, specEmitted, h1]
  · rw [heq] at hnostop
    exact absurd hnostop (by simp [stopState])

/-- C3 witness for the amended claim: stop pattern `[5, 5]`, constant
samples `1`, budget `N = 3`: no match, and the emitted stream is the first
`3 + 1 - 2 = 2` samples. -/
theorem budget_exhaustion_emitted_witness :
    (genRun [[5, 5]] (fun _ => (1 : ℤ)) 1 3).emitted =
      (List.range (3 + 1 - bufferLength [[5, 5]])).map (fun _ => (1 : ℤ)) :=
  (budget_exhaustion_emitted [[5, 5]] (fun _ => (1 : ℤ)) 1 3 (by decide) (by decide)
    (by decide)).1

/-- C5: the emitted stream is always a prefix (in FIFO generation order) of
the sampled token sequence — so every generated token is yielded at most
once, in order — and on a detected stop the emitted length plus the match
length equals the number of generated tokens, so the emitted positions are
disjoint from the recognized match. -/
theorem emitted_prefix_of_sampled (stops : List (List ℤ)) (sample : ℕ → ℤ)
    (T N : ℕ) (hT : 1 ≤ T)
    (hne : ∀ p ∈ stops, p ≠ []) (hval : ∀ p ∈ stops, ∀ x ∈ p, 0 ≤ x) :
    (genRun stops sample T N).emitted <+: (List.range N).map sample ∧
    ∀ t i, (genRun stops sample T N).stopped = some (t, i) →
      ∀ p, stops[i]? = some p →
        (genRun stops sample T N).emitted.length + p.length = t + 1 := by
  have hL : 1 ≤ bufferLength stops := bufferLength_pos hne
  rcases genRun_cases stops sample T N hT hL with ⟨hfree, heq⟩ | ⟨t0, i0, p0, htN, hfree, hm, heq⟩
  · rw [heq]
    constructor
    · show specEmitted sample (bufferLength stops) N <+: _
      unfold specEmitted
      exact map_range_prefix_of_le sample (by omega)
    · intro t i habs
      exact absurd habs (by simp [runningState])
  · have hm' := hm
    unfold matchAt at hm'
    obtain ⟨-, hget, -, -⟩ := findStopAux_eq_some hm'
    rw [Nat.sub_zero] at hget
    have hmem : p0 ∈ stops := List.getElem?_mem hget
    have hfill := filled_of_matchAt stops sample hne hval hm
    have hlen := length_le_bufferLength hmem
    have hemit := stopState_emitted sample T (bufferLength stops) t0 i0 p0 hL hfill hlen
    rw [heq]
    constructor
    · rw [hemit]
      exact map_range_prefix_of_le sample (by omega)
    · intro t i hsome p hp
      simp only [stopState, Option.some.injEq, Prod.mk.injEq] at hsome
      obtain ⟨rfl, rfl⟩ := hsome
      have hp0 : p0 = p := by
        rw [hget] at hp
        exact Option.some.inj hp
      subst hp0
      rw [hemit]
      simp only [List.length_map, List.length_range]
      omega

/-- C5 witness: single stop pattern `[4]`, samples `0, 1, 2`, no match: the
emitted stream is a prefix of the sampled sequence. -/
theorem emitted_prefix_of_sampled_witness :
    (genRun [[4]] (fun t => (t : ℤ)) 1 3).emitted <+:
      (List.range 3).map (fun t => (t : ℤ)) ∧
    ∀ t i, (genRun [[4]] (fun t => (t : ℤ)) 1 3).stopped = some (t, i) →
      ∀ p, [[(4 : ℤ)]][i]? = some p →
        (genRun [[4]] (fun t => (t : ℤ)) 1 3).emitted.length + p.length = t + 1 :=
  emitted_prefix_of_sampled [[4]] (fun t => (t : ℤ)) 1 3 (by decide) (by decide) (by decide)

/-- C6: when the run stops at iteration `t` on configuration index `i`, the
pattern of index `i` matches the trailing slice of the final buffer, every
pattern listed before it fails to match that buffer (first pattern in
configuration order wins — no preference for longer matches), and the
length of the winning pattern determines how many trailing tokens are
discarded: emitted + match length = tokens generated. -/
theorem first_pattern_priority (stops : List (List ℤ)) (sample : ℕ → ℤ)
    (T N : ℕ) (hT : 1 ≤ T)
    (hne : ∀ p ∈ stops, p ≠ []) (hval : ∀ p ∈ stops, ∀ x ∈ p, 0 ≤ x)
    {t i : ℕ} {p : List ℤ}
    (hstop : (genRun stops sample T N).stopped = some (t, i))
    (hp : stops[i]? = some p) :
    lastSlice (genRun stops sample T N).buffer p.length = p ∧
    (∀ j q, j < i → stops[j]? = some q →
      lastSlice (genRun stops sample T N).buffer q.length ≠ q) ∧
    (genRun stops sample T N).emitted.length + p.length = t + 1 := by
  have hL : 1 ≤ bufferLength stops := bufferLength_pos hne
  rcases genRun_cases stops sample T N hT hL with ⟨hfree, heq⟩ | ⟨t0, i0, p0, htN, hfree, hm, heq⟩
  · rw [heq] at hstop
    exact absurd hstop (by simp [runningState])
  · rw [heq] at hstop ⊢
    simp only [stopState, Option.some.injEq, Prod.mk.injEq] at hstop
    obtain ⟨rfl, rfl⟩ := hstop
    have hm' := hm
    unfold matchAt at hm'
    obtain ⟨-, hget, hslice, hfirst⟩ := findStopAux_eq_some hm'
    rw [Nat.sub_zero] at hget
    have hp0 : p0 = p := by
      rw [hget] at hp
      exact Option.some.inj hp
    subst hp0
    have hmem : p0 ∈ stops := List.getElem?_mem hget
    have hfill := filled_of_matchAt stops sample hne hval hm
    have hlen := length_le_bufferLength hmem
    refine ⟨?_, ?_, ?_⟩
    · show lastSlice (writtenBuf sample (bufferLength stops) t0) p0.length = p0
      exact hslice
    · intro j q hj hq
      show lastSlice (writtenBuf sample (bufferLength stops) t0) q.length ≠ q
      exact hfirst j (by omega) q hq
    · rw [show (stopState sample T (bufferLength stops) t0 i0 p0).emitted =
          (List.range (t0 + 1 - p0.length)).map sample from
          stopState_emitted sample T (bufferLength stops) t0 i0 p0 hL hfill hlen]
      simp only [List.length_map, List.length_range]
      omega

/-- C6 witness: with patterns `([7], [5, 7])` and samples `5, 7`, both
patterns match the tail at iteration 1; the run picks the first listed
pattern `[7]` (index 0), not the longer `[5, 7]`, and discards exactly one
trailing token. -/
theorem first_pattern_priority_witness :
    lastSlice (genRun [[7], [5, 7]] w6 1 2).buffer [(7 : ℤ)].length = [(7 : ℤ)] ∧
    (∀ j q, j < 0 → [[(7 : ℤ)], [5, 7]][j]? = some q →
      lastSlice (genRun [[7], [5, 7]] w6 1 2).buffer q.length ≠ q) ∧
    (genRun [[7], [5, 7]] w6 1 2).emitted.length + [(7 : ℤ)].length = 1 + 1 :=
  @first_pattern_priority [[7], [5, 7]] w6 1 2 (by decide) (by decide) (by decide)
    1 0 [(7 : ℤ)] (by decide) (by decide)

/-- Lookup formula for the recorded `input_pos` arguments. -/
theorem posTrace_formula (T c i : ℕ) (hi : i < c) :
    ((List.range c).map (inputPosSpec T))[i]? =
      some (if i = 0 then List.range T else [T + i - 1]) := by
  rw [List.getElem?_map, List.getElem?_range hi]
  rfl

/-- C7: the `input_pos` argument of the model calls: the first call receives
the full prompt positions `0 .. T-1`, and for `i ≥ 1` the `(i+1)`-th call
receives the single position `T + i - 1`; hence the cursor starts at the
prompt length and advances by exactly one per generated token. -/
theorem position_cursor_trace (stops : List (List ℤ)) (sample : ℕ → ℤ)
    (T N : ℕ) (hT : 1 ≤ T) (hne : ∀ p ∈ stops, p ≠ []) :
    ∀ i, i < (genRun stops sample T N).posTrace.length →
      (genRun stops sample T N).posTrace[i]? =
        some (if i = 0 then List.range T else [T + i - 1]) := by
  have hL : 1 ≤ bufferLength stops := bufferLength_pos hne
  rcases genRun_cases stops sample T N hT hL with ⟨hfree, heq⟩ | ⟨t0, i0, p0, htN, hfree, hm, heq⟩
  · rw [heq]
    intro i hi
    simp only [runningState, List.length_map, List.length_range] at hi
    exact posTrace_formula T N i hi
  · rw [heq]
    intro i hi
    simp only [stopState, List.length_map, List.length_range] at hi
    exact posTrace_formula T (t0 + 1) i hi

/-- C7 witness: empty stop set, prompt length 2, two iterations: the first
model call gets positions `[0, 1]` and the second the single position `[2]`. -/
theorem position_cursor_trace_witness :
    1 < (genRun [] (fun _ => (0 : ℤ)) 2 2).posTrace.length ∧
    (genRun [] (fun _ => (0 : ℤ)) 2 2).posTrace[1]? =
      some (if 1 = 0 then List.range 2 else [2 + 1 - 1]) :=
  ⟨by decide, position_cursor_trace [] (fun _ => (0 : ℤ)) 2 2 (by decide) (by decide) 1
    (by decide)⟩

/-- C9: provided every stop-pattern token is a valid (non-negative) id and
the sampling oracle only returns valid ids (as `torch.multinomial` does),
every value `generate` yields is one of the sampled tokens of this call and
is never the `-999` buffer-initialization sentinel. -/
theorem no_sentinel_emitted (stops : List (List ℤ)) (sample : ℕ → ℤ)
    (T N : ℕ) (hT : 1 ≤ T)
    (hne : ∀ p ∈ stops, p ≠ []) (hval : ∀ p ∈ stops, ∀ x ∈ p, 0 ≤ x)
    (hs : ∀ u, 0 ≤ sample u) :
    ∀ x ∈ (genRun stops sample T N).emitted,
      x ∈ (List.range N).map sample ∧ x ≠ FILLER := by
  have hL : 1 ≤ bufferLength stops := bufferLength_pos hne
  have main : ∀ a, a ≤ N → ∀ x ∈ (List.range a).map sample,
      x ∈ (List.range N).map sample ∧ x ≠ FILLER := by
    intro a ha x hx
    rw [List.mem_map] at hx
    obtain ⟨u, hu, rfl⟩ := hx
    rw [List.mem_range] at hu
    refine ⟨List.mem_map.mpr ⟨u, List.mem_range.mpr (by omega), rfl⟩, ?_⟩
    have h0 := hs u
    intro hEq
    rw [hEq] at h0
    norm_num [FILLER] at h0
  rcases genRun_cases stops sample T N hT hL with ⟨hfree, heq⟩ | ⟨t0, i0, p0, htN, hfree, hm, heq⟩
  · rw [heq]
    show ∀ x ∈ specEmitted sample (bufferLength stops) N, _
    unfold specEmitted
    exact main (N + 1 - bufferLength stops) (by omega)
  · have hm' := hm
    unfold matchAt at hm'
    obtain ⟨-, hget, -, -⟩ := findStopAux_eq_some hm'
    rw [Nat.sub_zero] at hget
    have hmem : p0 ∈ stops := List.getElem?_mem hget
    have hfill := filled_of_matchAt stops sample hne hval hm
    have hlen := length_le_bufferLength hmem
    rw [heq, stopState_emitted sample T (bufferLength stops) t0 i0 p0 hL hfill hlen]
    exact main (t0 + 1 - p0.length) (by omega)

/-- C9 witness: pattern `[3]`, constant valid samples `2`: the emitted
token `2` is a sampled token of the call and is not the sentinel. -/
theorem no_sentinel_emitted_witness :
    (2 : ℤ) ∈ (List.range 2).map (fun _ => (2 : ℤ)) ∧ (2 : ℤ) ≠ FILLER :=
  no_sentinel_emitted [[3]] (fun _ => (2 : ℤ)) 1 2 (by decide) (by decide) (by decide)
    (fun u => by norm_num) 2 (by decide)

/-- C10: with an empty stop-pattern set the buffer capacity is 1 and each
sampled token is yielded within the very iteration that sampled it: after
any number `j` of iterations the emitted stream is exactly the first `j`
samples, and a full-budget run yields exactly `N = max_new_tokens` tokens. -/
theorem empty_stops_full_stream (sample : ℕ → ℤ) (T N : ℕ) (hT : 1 ≤ T) :
    bufferLength [] = 1 ∧
    (∀ j, (genRun [] sample T j).stopped = none ∧
      (genRun [] sample T j).emitted = (List.range j).map sample) ∧
    (genRun [] sample T N).emitted.length = N := by
  have hfree : ∀ j, stopsFree [] sample j := by
    intro j u hu
    rfl
  have hrun : ∀ j, genRun [] sample T j = runningState sample T (bufferLength []) j :=
    fun j => genRun_eq_running [] sample T j hT (by decide) (hfree j)
  have hemit : ∀ j, (genRun [] sample T j).emitted = (List.range j).map sample := by
    intro j
    rw [hrun j]
    show specEmitted sample (bufferLength []) j = _
    unfold specEmitted
    rw [show j + 1 - bufferLength [] = j by simp [bufferLength]]
  refine ⟨rfl, fun j => ⟨?_, hemit j⟩, ?_⟩
  · rw [hrun j]
    rfl
  · rw [hemit N]
    simp

/-- C10 witness: empty stop set, `N = 2`: both samples stream out, count 2. -/
theorem empty_stops_full_stream_witness :
    bufferLength [] = 1 ∧
    (∀ j, (genRun [] (fun _ => (6 : ℤ)) 1 j).stopped = none ∧
      (genRun [] (fun _ => (6 : ℤ)) 1 j).emitted = (List.range j).map (fun _ => (6 : ℤ))) ∧
    (genRun [] (fun _ => (6 : ℤ)) 1 2).emitted.length = 2 :=
  empty_stops_full_stream (fun _ => (6 : ℤ)) 1 2 (by decide)

/-- C2: the code misses stop matches while the buffer is still filling. With
`stop_tokens = ([5, 5], [7])` (buffer capacity 2) and every sampled token
`7`, the generated sequence already ends with the configured pattern `[7]`
at iteration 0 (third conjunct), yet the run does not stop there: at
iteration 0 the scan compares `[7]` against the trailing slice `[-999]` of
the half-filled buffer.  The run stops only at iteration 1 and yields `[7]`
— a token equal to the stop pattern that, per the docstring, should have
ended generation before any output. -/
theorem stop_missed_during_fill :
    (genRun [[5, 5], [7]] (fun _ => (7 : ℤ)) 1 2).stopped = some (1, 1) ∧
    (genRun [[5, 5], [7]] (fun _ => (7 : ℤ)) 1 2).emitted = [7] ∧
    lastSlice ((List.range 1).map (fun _ => (7 : ℤ))) [(7 : ℤ)].length = [(7 : ℤ)] := by
  refine ⟨by decide, by decide, by decide⟩

/-- C8 counterexample: `temperature = -1 ≤ 0` is not rejected: the call runs
the loop and yields a token (the source never inspects `temperature`; it
only divides the logits by it at line 62, which for any nonzero value still
produces a valid sampling distribution). -/
theorem temperature_not_validated :
    generate 1 1 10 none (-1) [] (fun _ => (3 : ℤ)) =
      some (genRun [] (fun _ => (3 : ℤ)) 1 1) ∧
    (genRun [] (fun _ => (3 : ℤ)) 1 1).emitted = [3] := by
  refine ⟨?_, by decide⟩
  unfold generate
  rw [if_pos (by decide)]

/-- C8 amended: the only configuration validated eagerly is
`max_seq_length`: whenever the resolved `max_seq_length` exceeds
`T + max_new_tokens`, the call aborts on the `assert` before the generation
loop starts and yields nothing; `temperature` is never validated. -/
theorem invalid_max_seq_length_aborts (T N bs : ℕ) (msl : Option ℕ) (temp : ℚ)
    (stops : List (List ℤ)) (sample : ℕ → ℤ)
    (h : T + N < resolveMaxSeqLength T N bs msl) :
    generate T N bs msl temp stops sample = none := by
  unfold generate
  rw [if_neg (by omega)]

/-- C8 witness: an explicit `max_seq_length = 5 > 1 + 1` aborts the call
before any token is produced. -/
theorem invalid_max_seq_length_aborts_witness :
    generate 1 1 10 (some 5) 1 [] (fun _ => (0 : ℤ)) = none :=
  invalid_max_seq_length_aborts 1 1 10 (some 5) 1 [] (fun _ => (0 : ℤ)) (by decide)

/-- C4: after the top-k mask, the support of the sampling distribution (the
entries not sent to `-inf`, i.e. the `some` entries) has size at least
`min k n`; an entry strictly below the `min(k, n)`-th largest logit is
masked out; and an entry at or above the threshold — including every tie
with the `k`-th largest value — survives unchanged. -/
theorem topk_mask_support (logits : List ℚ) (k : ℕ)
    (hl : logits ≠ []) (hk : 1 ≤ k) :
    min k logits.length ≤ (topkMasked logits k).countP Option.isSome ∧
    (∀ (j : ℕ) (x : ℚ), logits[j]? = some x → x < topkThreshold logits k →
      (topkMasked logits k)[j]? = some none) ∧
    (∀ (j : ℕ) (x : ℚ), logits[j]? = some x → topkThreshold logits k ≤ x →
      (topkMasked logits k)[j]? = some (some x)) := by
  have hn : 0 < logits.length := List.length_pos.mpr hl
  refine ⟨?_, ?_, ?_⟩
  · -- size of the support
    have hperm : List.Perm (List.insertionSort (fun a b : ℚ => a ≤ b) logits) logits :=
      List.perm_insertionSort _ logits
    have hslen : (List.insertionSort (fun a b : ℚ => a ≤ b) logits).length = logits.length :=
      hperm.length_eq
    have hmlt : logits.length - min k logits.length <
        (List.insertionSort (fun a b : ℚ => a ≤ b) logits).length := by omega
    have hthr : topkThreshold logits k =
        (List.insertionSort (fun a b : ℚ => a ≤ b) logits)[logits.length - min k logits.length] := by
      unfold topkThreshold
      rw [List.getD_eq_getElem?_getD, List.getElem?_eq_getElem hmlt]
      rfl
    have hsorted : List.Sorted (fun a b : ℚ => a ≤ b)
        (List.insertionSort (fun a b : ℚ => a ≤ b) logits) :=
      List.sorted_insertionSort _ logits
    have hdrop := List.drop_eq_getElem_cons hmlt
    have hsorted_drop : List.Sorted (fun a b : ℚ => a ≤ b)
        ((List.insertionSort (fun a b : ℚ => a ≤ b) logits).drop
          (logits.length - min k logits.length)) :=
      List.Pairwise.sublist (List.drop_sublist _ _) hsorted
    have hall : ∀ x ∈ (List.insertionSort (fun a b : ℚ => a ≤ b) logits).drop
        (logits.length - min k logits.length), topkThreshold logits k ≤ x := by
      intro x hx
      rw [hdrop] at hx hsorted_drop
      rcases List.mem_cons.mp hx with h' | h'
      · rw [hthr, h']
      · rw [hthr]
        exact List.rel_of_sorted_cons hsorted_drop x h'
    unfold topkMasked
    rw [List.countP_map]
    have hcnt : List.countP
        (Option.isSome ∘ fun x : ℚ => if x < topkThreshold logits k then none else some x)
        logits = List.countP (fun x : ℚ => decide (topkThreshold logits k ≤ x)) logits := by
      apply List.countP_congr
      intro x hx
      by_cases h : x < topkThreshold logits k
      · simp [Function.comp, h, not_le.mpr h]
      · simp [Function.comp, h, not_lt.mp h]
    rw [hcnt]
    have h1 : List.countP (fun x : ℚ => decide (topkThreshold logits k ≤ x))
        (List.insertionSort (fun a b : ℚ => a ≤ b) logits) =
        List.countP (fun x : ℚ => decide (topkThreshold logits k ≤ x)) logits :=
      hperm.countP_eq _
    rw [← h1]
    have h2 : List.countP (fun x : ℚ => decide (topkThreshold logits k ≤ x))
        (List.insertionSort (fun a b : ℚ => a ≤ b) logits) =
        List.countP (fun x : ℚ => decide (topkThreshold logits k ≤ x))
          ((List.insertionSort (fun a b : ℚ => a ≤ b) logits).take
            (logits.length - min k logits.length)) +
        List.countP (fun x : ℚ => decide (topkThreshold logits k ≤ x))
          ((List.insertionSort (fun a b : ℚ => a ≤ b) logits).drop
            (logits.length - min k logits.length)) := by
      conv_lhs =>
        rw [← List.take_append_drop (logits.length - min k logits.length)
          (List.insertionSort (fun a b : ℚ => a ≤ b) logits)]
      rw [List.countP_append]
    have h3 : List.countP (fun x : ℚ => decide (topkThreshold logits k ≤ x))
        ((List.insertionSort (fun a b : ℚ => a ≤ b) logits).drop
          (logits.length - min k logits.length)) =
        ((List.insertionSort (fun a b : ℚ => a ≤ b) logits).drop
          (logits.length - min k logits.length)).length := by
      rw [List.countP_eq_length]
      intro a ha
      simpa using hall a ha
    have h4 : ((List.insertionSort (fun a b : ℚ => a ≤ b) logits).drop
        (logits.length - min k logits.length)).length = min k logits.length := by
      rw [List.length_drop, hslen]
      omega
    omega
  · -- entries strictly below the threshold are masked to -inf
    intro j x hj hx
    unfold topkMasked
    rw [List.getElem?_map, hj, Option.map_some']
    rw [if_pos hx]
  · -- entries at or above the threshold (ties included) survive unchanged
    intro j x hj hx
    unfold topkMasked
    rw [List.getElem?_map, hj, Option.map_some']
    rw [if_neg (not_lt.mpr hx)]

/-- C4 witness: logits `[1, 3, 2, 3]` with `k = 2`: the threshold is the
2nd-largest value `3`; both tied entries survive, the support has size
`2 = min 2 4`, and the entry `1 < 3` is masked out. -/
theorem topk_mask_support_witness :
    min 2 [(1 : ℚ), 3, 2, 3].length ≤
      (topkMasked [(1 : ℚ), 3, 2, 3] 2).countP Option.isSome ∧
    [(1 : ℚ), 3, 2, 3][0]? = some 1 ∧ (1 : ℚ) < topkThreshold [(1 : ℚ), 3, 2, 3] 2 ∧
    (topkMasked [(1 : ℚ), 3, 2, 3] 2)[0]? = some none :=
  ⟨(topk_mask_support [(1 : ℚ), 3, 2, 3] 2 (by decide) (by decide)).1, by norm_num,
    by norm_num [topkThreshold, List.insertionSort, List.orderedInsert],
    (topk_mask_support [(1 : ℚ), 3, 2, 3] 2 (by decide) (by decide)).2.1 0 1 (by norm_num)
      (by norm_num [topkThreshold, List.insertionSort, List.orderedInsert])⟩

end Chat

